import Mathlib

/-!
Verification of the tree-thinning parser (`src/main.rs`).

The program consumes a stream of `ParseEvent`s (`Start name` / `End name`),
building a deduplicated tree of tag names: `Node` holds a map from tag name
to child `Node`.  The Rust `Node` stores its children in a `HashMap`, whose
equality and iteration semantics are those of a finite map (key set plus
per-key values, insertion order irrelevant); we embed that map as an
association list kept sorted by key, the canonical representative, so that
Lean's `=` on `Node` coincides with the Rust `PartialEq` (recursive equality
of the children maps).

The Rust parser walks the tree in place through `Rc`/`RefCell`, keeping a
current node and following `parent` back-references on `End`.  We embed this
as a zipper: the state is the current subtree plus a stack of
`(name, parent)` frames; `Start` descends into the (existing or fresh) child
and `End` writes the finished child back into its parent.  On `End` at the
root the Rust code calls `.unwrap()` on `parent == None` and panics; the
embedding returns `none` there.  At end of stream the remaining frames are
plugged back together, which reproduces the in-place mutations the Rust
root sees.
-/

inductive ParseEvent where
  | Start (name : String)
  | End (name : String)
deriving Repr, DecidableEq

inductive Node where
  | mk (children : List (String × Node))
deriving Repr

def Node.children : Node → List (String × Node)
  | .mk cs => cs

/-- Lexicographic order on character lists; the key order used to keep the
children map canonical. -/
def charListLt : List Char → List Char → Bool
  | [], [] => false
  | [], _ :: _ => true
  | _ :: _, [] => false
  | c :: cs, d :: ds =>
    if c < d then true
    else if d < c then false
    else charListLt cs ds

/-- A total order on tag names (any fixed order works; the Rust `HashMap`
is unordered, and this order only picks the canonical representative). -/
def strLt (a b : String) : Bool :=
  charListLt a.data b.data

/-- Lookup in the children map (embeds `HashMap::get` / `entry` lookup). -/
def lookupChild (k : String) : List (String × Node) → Option Node
  | [] => none
  | (k', v) :: rest => if k = k' then some v else lookupChild k rest

/-- Ordered insert-or-replace into the children map, keeping the canonical
sorted-by-key representation of the Rust `HashMap`. -/
def insertChild (k : String) (v : Node) : List (String × Node) → List (String × Node)
  | [] => [(k, v)]
  | (k', v') :: rest =>
    if strLt k k' then (k, v) :: (k', v') :: rest
    else if k = k' then (k, v) :: rest
    else (k', v') :: insertChild k v rest

/-- Parser state: the current node plus the stack of open ancestors
(innermost first); each frame holds the tag name under which the current
subtree hangs and the parent node as it was when we descended. -/
structure PState where
  cur : Node
  stack : List (String × Node)
deriving Repr

/-- One step of the Rust `parse` loop.  `Start`: enter the existing child
for `name`, or a fresh empty node if absent.  `End`: write the current node
back under its name in the parent and move up; with only the root open the
Rust code unwraps `parent == None` and panics, embedded as `none`. -/
def step : PState → ParseEvent → Option PState
  | ⟨cur, stk⟩, .Start name =>
    some ⟨(lookupChild name cur.children).getD (Node.mk []), (name, cur) :: stk⟩
  | ⟨cur, stk⟩, .End _ =>
    match stk with
    | [] => none
    | (name, parent) :: rest =>
      some ⟨Node.mk (insertChild name cur parent.children), rest⟩

def run : List ParseEvent → PState → Option PState
  | [], s => some s
  | e :: es, s =>
    match step s e with
    | none => none
    | some s' => run es s'

/-- Close the zipper: write every still-open node back into its parent.
This recovers the root exactly as the Rust in-place mutations left it when
the stream ends with elements still open. -/
def plug (s : PState) : Node :=
  s.stack.foldl (fun c f => Node.mk (insertChild f.1 c f.2.children)) s.cur

/-- Embedding of `parse` from `src/main.rs`: fold the event stream from a
bare root; `none` models the panic on a `Close` at the root. -/
def parse (es : List ParseEvent) : Option Node :=
  (run es ⟨Node.mk [], []⟩).map plug

/-! ### Well-nested input, described as a forest of rose trees

A well-nested event sequence is exactly the flattening of a forest: each
tree `mk n ks` flattens to `Start n`, the flattened kids, `End n`.
`addR`/`addForest` give the denotation of such input: folding each tree
into the deduplicated `Node` map, reusing an existing child of the same
name and extending its subtree. -/

inductive RTree where
  | mk (name : String) (kids : List RTree)
deriving Repr

mutual
def RTree.events : RTree → List ParseEvent
  | .mk n ks => ParseEvent.Start n :: (forestEvents ks ++ [ParseEvent.End n])
def forestEvents : List RTree → List ParseEvent
  | [] => []
  | r :: rs => RTree.events r ++ forestEvents rs
end

mutual
def addR : Node → RTree → Node
  | t, .mk n ks =>
    Node.mk (insertChild n (addForest ((lookupChild n t.children).getD (Node.mk [])) ks)
      t.children)
def addForest : Node → List RTree → Node
  | t, [] => t
  | t, r :: rs => addForest (addR t r) rs
end

mutual
/-- Static nesting depth of a tree / forest of well-nested input. -/
def RTree.depth : RTree → Nat
  | .mk _ ks => 1 + forestDepth ks
def forestDepth : List RTree → Nat
  | [] => 0
  | r :: rs => max (RTree.depth r) (forestDepth rs)
end

/-- `run` instrumented with the maximum stack depth (depth of the current
position) observed after each step. -/
def runD : List ParseEvent → PState → Nat → Option (PState × Nat)
  | [], s, m => some (s, m)
  | e :: es, s, m =>
    match step s e with
    | none => none
    | some s' => runD es s' (max m s'.stack.length)

/-- Does the sequence keep the running open-element count nonnegative when
started at depth `d`?  (`depthOk es 0` rules out a `Close` at the root.) -/
def depthOk : List ParseEvent → Nat → Bool
  | [], _ => true
  | .Start _ :: es, d => depthOk es (d + 1)
  | .End _ :: es, d =>
    match d with
    | 0 => false
    | d' + 1 => depthOk es d'

/-- Two event sequences that agree except possibly on the names carried by
`End` events. -/
inductive EndAgnostic : List ParseEvent → List ParseEvent → Prop where
  | nil : EndAgnostic [] []
  | start (n : String) (h : EndAgnostic es fs) :
      EndAgnostic (ParseEvent.Start n :: es) (ParseEvent.Start n :: fs)
  | close (a b : String) (h : EndAgnostic es fs) :
      EndAgnostic (ParseEvent.End a :: es) (ParseEvent.End b :: fs)

/-- The parser loop as a step relation (one derivation per run), mirroring
the three reachable branches of the Rust `match`: enter a fresh child,
enter an existing child, pop to the parent. -/
inductive StepRel : PState → ParseEvent → PState → Prop where
  | startNew (n : String) (cur : Node) (stk : List (String × Node))
      (h : lookupChild n cur.children = none) :
      StepRel ⟨cur, stk⟩ (ParseEvent.Start n) ⟨Node.mk [], (n, cur) :: stk⟩
  | startOld (n : String) (cur c : Node) (stk : List (String × Node))
      (h : lookupChild n cur.children = some c) :
      StepRel ⟨cur, stk⟩ (ParseEvent.Start n) ⟨c, (n, cur) :: stk⟩
  | endPop (m n : String) (cur p : Node) (rest : List (String × Node)) :
      StepRel ⟨cur, (n, p) :: rest⟩ (ParseEvent.End m)
        ⟨Node.mk (insertChild n cur p.children), rest⟩

inductive RunRel : PState → List ParseEvent → PState → Prop where
  | nil (s : PState) : RunRel s [] s
  | cons (h : StepRel s e s') (hs : RunRel s' es s'') : RunRel s (e :: es) s''

/-- `t` is a possible result of running the parser on `es`. -/
def ParseRel (es : List ParseEvent) (t : Node) : Prop :=
  ∃ s', RunRel ⟨Node.mk [], []⟩ es s' ∧ t = plug s'

/-- Recursive sibling permutation: the two forests list the same named
subtrees under every parent, in possibly different orders. -/
inductive FPerm : List RTree → List RTree → Prop where
  | nil : FPerm [] []
  | cons (n : String) (hk : FPerm ks ls) (hf : FPerm f g) :
      FPerm (RTree.mk n ks :: f) (RTree.mk n ls :: g)
  | swap (a b : RTree) (f : List RTree) : FPerm (a :: b :: f) (b :: a :: f)
  | trans (h₁ : FPerm f g) (h₂ : FPerm g h) : FPerm f h

/-- Nest the forest `f` below the fresh path `ps`: the parent position of
the siblings in `f` is reached by opening the names of `ps` in turn. -/
def wrapForest : List String → List RTree → List RTree
  | [], f => f
  | p :: ps, f => [RTree.mk p (wrapForest ps f)]

/-- Follow a path of names down the children maps. -/
def getPath : Node → List String → Option Node
  | t, [] => some t
  | t, p :: ps =>
    match lookupChild p t.children with
    | none => none
    | some u => getPath u ps

/-- The kid forests of every top-level tree named `x`, in order. -/
def topKids (x : String) : List RTree → List (List RTree)
  | [] => []
  | RTree.mk n ks :: rs => if n = x then ks :: topKids x rs else topKids x rs

/-- How many entries of the children map carry key `k`. -/
def countKey (k : String) : List (String × Node) → Nat
  | [] => 0
  | (k', _) :: rest => (if k' = k then 1 else 0) + countKey k rest

/-! ### Renderer (`Node::print`) -/

/-- Two-space indentation per nesting level (`"  ".repeat(depth)`). -/
def indent : Nat → String
  | 0 => ""
  | d + 1 => "  " ++ indent d

mutual
/-- Embedding of `Node::print`: children are rendered in the canonical map
order (the Rust `HashMap` iteration order is arbitrary; the map is the
same).  A child with no children prints as a self-closing tag, otherwise as
an open/close pair around the recursively printed children. -/
def Node.print : Node → Nat → String
  | .mk cs, depth => printEntries cs depth
def printEntries : List (String × Node) → Nat → String
  | [], _ => ""
  | (name, node) :: rest, depth =>
    (if node.children.length < 1 then
      indent depth ++ "<" ++ name ++ " />\n"
    else
      indent depth ++ "<" ++ name ++ ">\n" ++ Node.print node (depth + 1) ++
        indent depth ++ "</" ++ name ++ ">\n") ++
    printEntries rest depth
end

mutual
/-- The renderer contract stated line by line, following the spec: each
childless child yields one self-closing-tag line at its indentation; each
child with children yields an open-tag line, the recursively rendered lines
one level deeper, and a close-tag line. -/
def renderLines : Node → Nat → List String
  | .mk cs, d => renderEntryLines cs d
def renderEntryLines : List (String × Node) → Nat → List String
  | [], _ => []
  | (name, node) :: rest, d =>
    (if node.children.length < 1 then
      [indent d ++ "<" ++ name ++ " />"]
    else
      (indent d ++ "<" ++ name ++ ">") :: (renderLines node (d + 1) ++
        [indent d ++ "</" ++ name ++ ">"])) ++
    renderEntryLines rest d
end

/-- Join rendered lines into the printed text, one `"\n"` after each. -/
def linesToString : List String → String
  | [] => ""
  | l :: ls => l ++ "\n" ++ linesToString ls

/-! ### Event adapter (`EventSource::next`)

The raw `xml-rs` stream is a list of tokens: element opens and closes,
end-of-document, read errors, and anything else (text, comments,
processing instructions).  The adapter loop skips the latter, maps opens
and closes to `ParseEvent`s, and ends the sequence at end-of-document or at
the first read error; an error also prints a diagnostic, modelled as the
second component. -/

inductive RawToken where
  | StartElement (name : String)
  | EndElement (name : String)
  | EndDocument
  | ReadError (msg : String)
  | OtherToken
deriving Repr, DecidableEq

/-- Embedding of the `EventSource` iterator, run to exhaustion: the events
it yields and the diagnostics it prints. -/
def adapt : List RawToken → List ParseEvent × List String
  | [] => ([], [])
  | .StartElement n :: rest =>
    ((adapt rest).1.cons (ParseEvent.Start n), (adapt rest).2)
  | .EndElement n :: rest =>
    ((adapt rest).1.cons (ParseEvent.End n), (adapt rest).2)
  | .EndDocument :: _ => ([], [])
  | .ReadError m :: _ => ([], [m])
  | .OtherToken :: rest => adapt rest

/-- Tokens the adapter consumes without stopping. -/
def isCleanToken : RawToken → Bool
  | .EndDocument => false
  | .ReadError _ => false
  | _ => true

def isClean (ts : List RawToken) : Bool := ts.all isCleanToken

/-! ### Arena model of `parse`, for the `Rc`/`Weak` pointer structure

`Node` values above abstract away pointer identity, which is enough for
every claim about the tree as a value.  For the parent back-reference
invariant we embed the same `parse` with explicit identities: nodes live
in an ever-growing store (ids are store indices, id 0 is the root created
at the start), `children` maps names to child ids (a strong `Rc`), and
`parent` is an optional id (the `Weak` back-reference). -/

structure ANode where
  children : List (String × Nat)
  parent : Option Nat
deriving Repr, DecidableEq

structure Arena where
  nodes : List ANode
  cur : Nat
deriving Repr, DecidableEq

def lookupId (k : String) : List (String × Nat) → Option Nat
  | [] => none
  | (k', i) :: rest => if k = k' then some i else lookupId k rest

def arenaInit : Arena := ⟨[⟨[], none⟩], 0⟩

/-- One step of `parse` on the identity-carrying store.  `Start`: move to
the existing child, or allocate a fresh node whose `parent` is set, once,
to the current id, and record it in the current node's children.  `End`:
follow the parent back-reference; `none` at the root models the panic. -/
def arenaStep : Arena → ParseEvent → Option Arena
  | ⟨ns, cur⟩, .Start name =>
    match ns[cur]? with
    | none => none
    | some nd =>
      match lookupId name nd.children with
      | some cid => some ⟨ns, cid⟩
      | none =>
        some ⟨ns.set cur ⟨(name, ns.length) :: nd.children, nd.parent⟩ ++
          [⟨[], some cur⟩], ns.length⟩
  | ⟨ns, cur⟩, .End _ =>
    match ns[cur]? with
    | none => none
    | some nd =>
      match nd.parent with
      | none => none
      | some p => some ⟨ns, p⟩

def arenaRun : List ParseEvent → Arena → Option Arena
  | [], a => some a
  | e :: es, a =>
    match arenaStep a e with
    | none => none
    | some a' => arenaRun es a'

/-- Node `i` is recorded as a child (strong reference) of node `j`. -/
def childOf (a : Arena) (i j : Nat) : Prop :=
  ∃ nd, a.nodes[j]? = some nd ∧ i ∈ nd.children.map Prod.snd

/-- Node `i` carries a parent back-reference to node `j`. -/
def parentOf (a : Arena) (i j : Nat) : Prop :=
  ∃ nd, a.nodes[i]? = some nd ∧ nd.parent = some j

/-- The store invariant: rooted at id 0 whose parent is `None`; child
links stay inside the store and never point at the root; a node's parent
back-reference points to `j` exactly when `j`'s children map contains it;
every non-root node is contained somewhere. -/
def ArenaInv (a : Arena) : Prop :=
  0 < a.nodes.length ∧
  a.cur < a.nodes.length ∧
  (∀ nd, a.nodes[0]? = some nd → nd.parent = none) ∧
  (∀ i j, childOf a i j → 0 < i ∧ i < a.nodes.length) ∧
  (∀ i j, childOf a i j ↔ parentOf a i j) ∧
  (∀ i, 0 < i → i < a.nodes.length → ∃ j, childOf a i j)

/-- The canonical children representation: keys strictly increasing.  Every
children list the parser builds satisfies this, hence keys are unique. -/
def SortedKeys (cs : List (String × Node)) : Prop :=
  cs.Pairwise (fun p q => strLt p.1 q.1 = true)

/-! ## Lemmas about the key order -/

theorem charListLt_irrefl : ∀ l : List Char, charListLt l l = false
  | [] => rfl
  | c :: cs => by simp [charListLt, lt_irrefl, charListLt_irrefl cs]

theorem charListLt_trans : ∀ l₁ l₂ l₃ : List Char,
    charListLt l₁ l₂ = true → charListLt l₂ l₃ = true → charListLt l₁ l₃ = true
  | _, [], [], _, h₂ => by simp [charListLt] at h₂
  | _, _ :: _, [], _, h₂ => by simp [charListLt] at h₂
  | [], _, _ :: _, _, _ => rfl
  | _ :: _, [], _, h₁, _ => by simp [charListLt] at h₁
  | c :: cs, d :: ds, e :: es, h₁, h₂ => by
    simp only [charListLt] at h₁ h₂ ⊢
    by_cases hcd : c < d
    · by_cases hde : d < e
      · rw [if_pos (lt_trans hcd hde)]
      · by_cases hed : e < d
        · rw [if_neg hde, if_pos hed] at h₂; exact absurd h₂ (by simp)
        · have : d = e := le_antisymm (le_of_not_lt hed) (le_of_not_lt hde)
          subst this; rw [if_pos hcd]
    · by_cases hdc : d < c
      · rw [if_neg hcd, if_pos hdc] at h₁; exact absurd h₁ (by simp)
      · have : c = d := le_antisymm (le_of_not_lt hdc) (le_of_not_lt hcd)
        subst this
        rw [if_neg hcd, if_neg hdc] at h₁
        by_cases hde : c < e
        · rw [if_pos hde]
        · by_cases hed : e < c
          · rw [if_neg hde, if_pos hed] at h₂; exact absurd h₂ (by simp)
          · rw [if_neg hde, if_neg hed] at h₂ ⊢
            exact charListLt_trans cs ds es h₁ h₂

theorem charListLt_conn : ∀ l₁ l₂ : List Char,
    charListLt l₁ l₂ = false → charListLt l₂ l₁ = false → l₁ = l₂
  | [], [], _, _ => rfl
  | [], _ :: _, h₁, _ => by simp [charListLt] at h₁
  | _ :: _, [], _, h₂ => by simp [charListLt] at h₂
  | c :: cs, d :: ds, h₁, h₂ => by
    simp only [charListLt] at h₁ h₂
    by_cases hcd : c < d
    · rw [if_pos hcd] at h₁; exact absurd h₁ (by simp)
    · by_cases hdc : d < c
      · rw [if_pos hdc] at h₂; exact absurd h₂ (by simp)
      · have hde : c = d := le_antisymm (le_of_not_lt hdc) (le_of_not_lt hcd)
        subst hde
        rw [if_neg hcd, if_neg hdc] at h₁ h₂
        rw [charListLt_conn cs ds h₁ h₂]

theorem strLt_irrefl (a : String) : strLt a a = false := charListLt_irrefl a.data

theorem strLt_trans {a b c : String} (h₁ : strLt a b = true) (h₂ : strLt b c = true) :
    strLt a c = true := charListLt_trans a.data b.data c.data h₁ h₂

theorem strLt_conn {a b : String} (h₁ : strLt a b = false) (h₂ : strLt b a = false) :
    a = b := by
  have h := charListLt_conn a.data b.data h₁ h₂
  cases a; cases b; simp only [] at h; rw [h]

theorem strLt_asymm {a b : String} (h : strLt a b = true) : strLt b a = false := by
  cases hba : strLt b a
  · rfl
  · have := strLt_trans h hba
    rw [strLt_irrefl] at this
    exact absurd this (by simp)

theorem strLt_ne {a b : String} (h : strLt a b = true) : a ≠ b := by
  intro he; subst he; rw [strLt_irrefl] at h; exact absurd h (by simp)

theorem strLt_trichotomy (a b : String) :
    strLt a b = true ∨ a = b ∨ strLt b a = true := by
  cases hab : strLt a b
  · cases hba : strLt b a
    · exact Or.inr (Or.inl (strLt_conn hab hba))
    · exact Or.inr (Or.inr rfl)
  · exact Or.inl rfl

/-! ## Lemmas about the children map -/

theorem lookupChild_insertChild_self (k : String) (v : Node) :
    ∀ cs, lookupChild k (insertChild k v cs) = some v
  | [] => by simp [insertChild, lookupChild]
  | (k', v') :: rest => by
    by_cases h1 : strLt k k' = true
    · simp [insertChild, h1, lookupChild]
    · by_cases h2 : k = k'
      · subst h2; simp [insertChild, strLt_irrefl, lookupChild]
      · simp [insertChild, h1, h2, lookupChild,
          lookupChild_insertChild_self k v rest]

theorem lookupChild_insertChild_ne (x k : String) (v : Node) (hne : x ≠ k) :
    ∀ cs, lookupChild x (insertChild k v cs) = lookupChild x cs
  | [] => by simp [insertChild, lookupChild, hne]
  | (k', v') :: rest => by
    by_cases h1 : strLt k k' = true
    · simp [insertChild, h1, lookupChild, hne]
    · by_cases h2 : k = k'
      · subst h2; simp [insertChild, h1, lookupChild, hne]
      · simp [insertChild, h1, h2, lookupChild,
          lookupChild_insertChild_ne x k v hne rest]

theorem insertChild_insertChild_same (k : String) (x y : Node) :
    ∀ cs, insertChild k x (insertChild k y cs) = insertChild k x cs
  | [] => by simp [insertChild, strLt_irrefl]
  | (k', v') :: rest => by
    by_cases h1 : strLt k k' = true
    · simp [insertChild, h1, strLt_irrefl]
    · by_cases h2 : k = k'
      · subst h2; simp [insertChild, h1, strLt_irrefl]
      · simp [insertChild, h1, h2, insertChild_insertChild_same k x y rest]

theorem insertChild_comm_lt (k m : String) (x y : Node) (hkm : strLt k m = true) :
    ∀ cs, insertChild k x (insertChild m y cs) = insertChild m y (insertChild k x cs)
  | [] => by
    simp [insertChild, hkm, strLt_asymm hkm, Ne.symm (strLt_ne hkm)]
  | (a, w) :: cs => by
    have hmk : strLt m k = false := strLt_asymm hkm
    have hmk' : m ≠ k := Ne.symm (strLt_ne hkm)
    rcases strLt_trichotomy k a with hka | hka | hka
    · rcases strLt_trichotomy m a with hma | hma | hma
      · simp [insertChild, hka, hma, hkm, hmk, hmk']
      · subst hma
        simp [insertChild, hka, hkm, hmk, hmk', strLt_irrefl]
      · simp [insertChild, hka, strLt_asymm hma, Ne.symm (strLt_ne hma), hkm,
          hmk, hmk']
    · subst hka
      simp [insertChild, strLt_irrefl, hkm, hmk, hmk', strLt_asymm hkm]
    · have ham : strLt a m = true := strLt_trans hka hkm
      have hak : strLt k a = false := strLt_asymm hka
      have hma : strLt m a = false := strLt_asymm ham
      simp [insertChild, hak, hma, Ne.symm (strLt_ne hka), Ne.symm (strLt_ne ham),
        insertChild_comm_lt k m x y hkm cs]

theorem insertChild_comm (k m : String) (x y : Node) (hne : k ≠ m) (cs : List (String × Node)) :
    insertChild k x (insertChild m y cs) = insertChild m y (insertChild k x cs) := by
  rcases strLt_trichotomy k m with hkm | hkm | hkm
  · exact insertChild_comm_lt k m x y hkm cs
  · exact absurd hkm hne
  · exact (insertChild_comm_lt m k y x hkm cs).symm

example : parse [] = some (Node.mk []) := by rfl

example :
    parse [ParseEvent.Start "parent", ParseEvent.End "parent"] =
      some (Node.mk [("parent", Node.mk [])]) := by rfl

example :
    parse [ParseEvent.Start "parent", ParseEvent.Start "son", ParseEvent.End "son",
      ParseEvent.Start "son", ParseEvent.End "son", ParseEvent.End "parent"] =
      some (Node.mk [("parent", Node.mk [("son", Node.mk [])])]) := by rfl

example : parse [ParseEvent.End "x"] = none := by rfl

example :
    parse [ParseEvent.Start "a"] = some (Node.mk [("a", Node.mk [])]) := by rfl

/-! ## Running the parser over well-nested input -/

theorem run_append (es fs : List ParseEvent) (s : PState) :
    run (es ++ fs) s =
      match run es s with
      | none => none
      | some s' => run fs s' := by
  induction es generalizing s with
  | nil => rfl
  | cons e es ih =>
    simp only [List.cons_append, run]
    cases step s e
    · rfl
    · exact ih _

mutual
theorem run_events_eq : ∀ (r : RTree) (cur : Node) (stk : List (String × Node)),
    run (RTree.events r) ⟨cur, stk⟩ = some ⟨addR cur r, stk⟩
  | .mk n ks, cur, stk => by
    simp only [RTree.events, run, step]
    rw [run_append, run_forest_eq ks _ _]
    simp only [run, step, addR]
theorem run_forest_eq : ∀ (f : List RTree) (cur : Node) (stk : List (String × Node)),
    run (forestEvents f) ⟨cur, stk⟩ = some ⟨addForest cur f, stk⟩
  | [], _, _ => rfl
  | r :: rs, cur, stk => by
    simp only [forestEvents, addForest]
    rw [run_append, run_events_eq r cur stk]
    exact run_forest_eq rs _ _
end

theorem plug_nil (t : Node) : plug ⟨t, []⟩ = t := rfl

theorem parse_forest (f : List RTree) :
    parse (forestEvents f) = some (addForest (Node.mk []) f) := by
  simp [parse, run_forest_eq, plug_nil]

/-! ## Sorted keys, uniqueness, and the dedup lemma -/

theorem mem_insertChild (k : String) (v : Node) :
    ∀ cs, ∀ p ∈ insertChild k v cs, p = (k, v) ∨ p ∈ cs
  | [], p, hp => by
    simp only [insertChild, List.mem_singleton] at hp
    exact Or.inl hp
  | (a, w) :: cs, p, hp => by
    simp only [insertChild] at hp
    by_cases h1 : strLt k a = true
    · rw [if_pos h1] at hp
      simp only [List.mem_cons] at hp
      simp only [List.mem_cons]
      tauto
    · rw [if_neg h1] at hp
      by_cases h2 : k = a
      · rw [if_pos h2] at hp
        simp only [List.mem_cons] at hp
        simp only [List.mem_cons]
        tauto
      · rw [if_neg h2] at hp
        simp only [List.mem_cons] at hp
        simp only [List.mem_cons]
        rcases hp with h | h
        · tauto
        · rcases mem_insertChild k v cs p h with h' | h' <;> tauto

theorem sortedKeys_insertChild (k : String) (v : Node) :
    ∀ cs, SortedKeys cs → SortedKeys (insertChild k v cs)
  | [], _ => by simp [insertChild, SortedKeys]
  | (a, w) :: cs, hs => by
    rcases List.pairwise_cons.mp hs with ⟨ha, hcs⟩
    simp only [insertChild]
    by_cases h1 : strLt k a = true
    · rw [if_pos h1]
      refine List.pairwise_cons.mpr ⟨?_, hs⟩
      intro q hq
      rcases List.mem_cons.mp hq with h | h
      · simp [h, h1]
      · exact strLt_trans h1 (ha q h)
    · rw [if_neg h1]
      by_cases h2 : k = a
      · subst h2
        rw [if_pos rfl]
        exact List.pairwise_cons.mpr ⟨ha, hcs⟩
      · rw [if_neg h2]
        refine List.pairwise_cons.mpr ⟨?_, sortedKeys_insertChild k v cs hcs⟩
        intro q hq
        rcases mem_insertChild k v cs q hq with h | h
        · have hak : strLt a k = true := by
            rcases strLt_trichotomy k a with h' | h' | h'
            · exact absurd h' h1
            · exact absurd h' h2
            · exact h'
          simp [h, hak]
        · exact ha q h

theorem countKey_eq_zero (x : String) :
    ∀ cs, (∀ p ∈ cs, strLt x p.1 = true) → countKey x cs = 0
  | [], _ => rfl
  | (a, w) :: cs, h => by
    have hax : a ≠ x := Ne.symm (strLt_ne (h (a, w) (List.mem_cons_self _ _)))
    simp only [countKey, hax, if_neg, not_false_iff,
      countKey_eq_zero x cs (fun p hp => h p (List.mem_cons_of_mem _ hp))]

theorem countKey_of_lookup (x : String) (v : Node) :
    ∀ cs, SortedKeys cs → lookupChild x cs = some v → countKey x cs = 1
  | [], _, hl => by simp [lookupChild] at hl
  | (a, w) :: cs, hs, hl => by
    rcases List.pairwise_cons.mp hs with ⟨ha, hcs⟩
    by_cases hx : x = a
    · subst hx
      have : countKey x cs = 0 :=
        countKey_eq_zero x cs (fun p hp => ha p hp)
      simp [countKey, this]
    · simp only [lookupChild, hx, if_neg, not_false_iff] at hl
      have := countKey_of_lookup x v cs hcs hl
      simp [countKey, Ne.symm hx, this]

theorem sortedKeys_addR : ∀ (t : Node) (r : RTree), SortedKeys t.children →
    SortedKeys (addR t r).children
  | t, .mk n ks, hs => by
    simp only [addR, Node.children]
    exact sortedKeys_insertChild n _ t.children hs

theorem sortedKeys_addForest : ∀ (f : List RTree) (t : Node), SortedKeys t.children →
    SortedKeys (addForest t f).children
  | [], _, hs => hs
  | r :: rs, t, hs =>
    sortedKeys_addForest rs (addR t r) (sortedKeys_addR t r hs)

theorem addForest_append (g₁ g₂ : List RTree) :
    ∀ t, addForest t (g₁ ++ g₂) = addForest (addForest t g₁) g₂ := by
  induction g₁ with
  | nil => intro t; rfl
  | cons r rs ih => intro t; simp only [List.cons_append, addForest]; exact ih _

theorem lookupChild_addForest (x : String) :
    ∀ (f : List RTree) (t : Node),
      lookupChild x (addForest t f).children =
        match topKids x f with
        | [] => lookupChild x t.children
        | _ :: _ =>
          some (addForest ((lookupChild x t.children).getD (Node.mk []))
            (topKids x f).flatten)
  | [], t => rfl
  | RTree.mk n ks :: rs, t => by
    by_cases hn : n = x
    · subst hn
      simp only [topKids, if_pos, addForest]
      have hlk : lookupChild n (addR t (RTree.mk n ks)).children =
          some (addForest ((lookupChild n t.children).getD (Node.mk [])) ks) := by
        simp only [addR, Node.children]
        exact lookupChild_insertChild_self n _ t.children
      have ih := lookupChild_addForest n rs (addR t (RTree.mk n ks))
      cases htk : topKids n rs with
      | nil =>
        rw [htk] at ih
        simp only [ih, hlk, List.flatten_cons, List.flatten_nil, List.append_nil]
      | cons q qs =>
        rw [htk] at ih
        simp only [ih, hlk, Option.getD_some, List.flatten_cons]
        simp [addForest_append]
    · simp only [topKids, hn, if_neg, not_false_iff, addForest]
      have hne : lookupChild x (addR t (RTree.mk n ks)).children =
          lookupChild x t.children := by
        simp only [addR, Node.children]
        exact lookupChild_insertChild_ne x n _ (fun h => hn h.symm) t.children
      have ih := lookupChild_addForest x rs (addR t (RTree.mk n ks))
      rw [ih, hne]

theorem getPath_wrapForest : ∀ (ps : List String) (f : List RTree),
    getPath (addForest (Node.mk []) (wrapForest ps f)) ps =
      some (addForest (Node.mk []) f)
  | [], _ => rfl
  | p :: ps, f => by
    simp only [wrapForest, addForest, addR, Node.children, lookupChild, getPath,
      insertChild]
    simp only [if_pos]
    exact getPath_wrapForest ps f

/-- C2: for every well-nested input in which two or more
`Open(X)...Close(X)` blocks occur as direct siblings under the same parent
position (the position reached by the fresh path `ps`), the parsed tree
gives that parent exactly one child keyed `X`, and that child's subtree is
the structural union of the subtrees contributed by every occurrence: the
occurrences' kid forests are folded into one map, each later occurrence
reusing and extending the child built so far, never replacing it. -/
theorem dedup_property (ps : List String) (f : List RTree) (x : String)
    (hocc : 2 ≤ (topKids x f).length) :
    ∃ root parent,
      parse (forestEvents (wrapForest ps f)) = some root ∧
      getPath root ps = some parent ∧
      countKey x parent.children = 1 ∧
      lookupChild x parent.children =
        some (addForest (Node.mk []) (topKids x f).flatten) := by
  have hlk : lookupChild x (addForest (Node.mk []) f).children =
      some (addForest (Node.mk []) (topKids x f).flatten) := by
    have h := lookupChild_addForest x f (Node.mk [])
    cases htk : topKids x f with
    | nil => rw [htk] at hocc; simp at hocc
    | cons q qs =>
      rw [htk] at h
      simpa [Node.children, lookupChild] using h
  refine ⟨_, _, parse_forest _, getPath_wrapForest ps f, ?_, hlk⟩
  exact countKey_of_lookup x _ _
    (sortedKeys_addForest f (Node.mk []) List.Pairwise.nil) hlk

/-- Witness for `dedup_property`: two sibling `a` blocks, one containing
`b` and one containing `c`, merge into a single child `a` with both. -/
theorem dedup_property_witness :
    2 ≤ (topKids "a" [RTree.mk "a" [RTree.mk "b" []],
      RTree.mk "a" [RTree.mk "c" []]]).length ∧
    (∃ root parent,
      parse (forestEvents (wrapForest [] [RTree.mk "a" [RTree.mk "b" []],
        RTree.mk "a" [RTree.mk "c" []]])) = some root ∧
      getPath root [] = some parent ∧
      countKey "a" parent.children = 1 ∧
      lookupChild "a" parent.children =
        some (addForest (Node.mk [])
          (topKids "a" [RTree.mk "a" [RTree.mk "b" []],
            RTree.mk "a" [RTree.mk "c" []]]).flatten)) :=
  ⟨by decide, dedup_property [] _ "a" (by decide)⟩

/-! ## Sibling insertion order does not matter -/

theorem addForest_addR_comm (y : RTree) :
    ∀ (A : List RTree),
      (∀ x ∈ A, ∀ t, addR (addR t x) y = addR (addR t y) x) →
      ∀ u, addR (addForest u A) y = addForest (addR u y) A
  | [], _, _ => rfl
  | x :: A, h, u => by
    simp only [addForest]
    rw [addForest_addR_comm y A (fun z hz => h z (List.mem_cons_of_mem _ hz)) (addR u x),
      h x (List.mem_cons_self _ _)]

theorem addForest_comm : ∀ (B A : List RTree),
    (∀ x ∈ A, ∀ y ∈ B, ∀ t, addR (addR t x) y = addR (addR t y) x) →
    ∀ u, addForest (addForest u A) B = addForest (addForest u B) A
  | [], _, _, _ => rfl
  | y :: B, A, h, u => by
    simp only [addForest]
    rw [addForest_addR_comm y A (fun x hx t => h x hx y (List.mem_cons_self _ _) t) u]
    exact addForest_comm B A
      (fun x hx z hz t => h x hx z (List.mem_cons_of_mem _ hz) t) (addR u y)

theorem addR_comm (a b : RTree) (t : Node) :
    addR (addR t a) b = addR (addR t b) a := by
  cases a with
  | mk m ka =>
    cases b with
    | mk n kb =>
      by_cases hmn : m = n
      · subst hmn
        simp only [addR, Node.children]
        rw [lookupChild_insertChild_self, lookupChild_insertChild_self]
        simp only [Option.getD_some]
        rw [insertChild_insertChild_same, insertChild_insertChild_same]
        rw [addForest_comm kb ka (fun x hx y hy t' => addR_comm x y t') _]
      · simp only [addR, Node.children]
        rw [lookupChild_insertChild_ne n m _ (Ne.symm hmn),
          lookupChild_insertChild_ne m n _ hmn]
        rw [insertChild_comm n m _ _ (Ne.symm hmn)]
termination_by sizeOf a + sizeOf b
decreasing_by
  have h1 := List.sizeOf_lt_of_mem hx
  have h2 := List.sizeOf_lt_of_mem hy
  simp only [RTree.mk.sizeOf_spec]
  omega

theorem FPerm_addForest {f g : List RTree} (h : FPerm f g) :
    ∀ t, addForest t f = addForest t g := by
  induction h with
  | nil => intro t; rfl
  | cons n hk hf ihk ihf =>
    intro t
    simp only [addForest, addR]
    rw [ihk, ihf]
  | swap a b f =>
    intro t
    simp only [addForest]
    rw [addR_comm]
  | trans h₁ h₂ ih₁ ih₂ =>
    intro t
    rw [ih₁, ih₂]

/-- C7: the order in which sibling elements are inserted never affects the
final tree: recursively permuting the siblings of a well-nested input
leaves the parsed tree unchanged (the canonical children representation
makes `=` the deep, insertion-order-independent map equality). -/
theorem sibling_order_irrelevant {f g : List RTree} (h : FPerm f g) :
    parse (forestEvents f) = parse (forestEvents g) := by
  rw [parse_forest, parse_forest, FPerm_addForest h]

/-- Witness for `sibling_order_irrelevant`: swapping two named siblings. -/
theorem sibling_order_irrelevant_witness :
    parse (forestEvents [RTree.mk "a" [], RTree.mk "b" []]) =
      parse (forestEvents [RTree.mk "b" [], RTree.mk "a" []]) :=
  sibling_order_irrelevant (FPerm.swap _ _ _)

/-! ## Depth tracking over well-nested input -/

theorem runD_append (es fs : List ParseEvent) (s : PState) (m : Nat) :
    runD (es ++ fs) s m =
      match runD es s m with
      | none => none
      | some (s', m') => runD fs s' m' := by
  induction es generalizing s m with
  | nil => rfl
  | cons e es ih =>
    simp only [List.cons_append, runD]
    cases step s e
    · rfl
    · exact ih _ _

mutual
theorem runD_events_eq : ∀ (r : RTree) (cur : Node) (stk : List (String × Node))
    (m : Nat), stk.length ≤ m →
    runD (RTree.events r) ⟨cur, stk⟩ m =
      some (⟨addR cur r, stk⟩, max m (stk.length + RTree.depth r))
  | .mk n ks, cur, stk, m, hm => by
    simp only [RTree.events, runD, step, List.length_cons]
    rw [runD_append]
    rw [runD_forest_eq ks ((lookupChild n cur.children).getD (Node.mk []))
      ((n, cur) :: stk) (max m (stk.length + 1))
      (by simp only [List.length_cons]; omega)]
    simp only [runD, step, addR, RTree.depth, List.length_cons,
      Option.some.injEq, Prod.mk.injEq]
    exact ⟨trivial, by omega⟩
theorem runD_forest_eq : ∀ (f : List RTree) (cur : Node)
    (stk : List (String × Node)) (m : Nat), stk.length ≤ m →
    runD (forestEvents f) ⟨cur, stk⟩ m =
      some (⟨addForest cur f, stk⟩, max m (stk.length + forestDepth f))
  | [], cur, stk, m, hm => by
    simp only [forestEvents, runD, addForest, forestDepth,
      Option.some.injEq, Prod.mk.injEq]
    exact ⟨trivial, by omega⟩
  | r :: rs, cur, stk, m, hm => by
    simp only [forestEvents, forestDepth, addForest]
    rw [runD_append, runD_events_eq r cur stk m hm]
    have h2 := runD_forest_eq rs (addR cur r) stk
      (max m (stk.length + RTree.depth r)) (le_trans hm (le_max_left _ _))
    exact h2.trans (by
      simp only [Option.some.injEq, Prod.mk.injEq]
      exact ⟨trivial, by omega⟩)
end

/-- C4: over any well-nested input (the flattening of a forest `f`), the
maximum depth of the current position reached while parsing equals the
static maximum nesting depth of the input, and after the fully balanced
sequence the current position is the root again (empty stack). -/
theorem depth_property (f : List RTree) :
    runD (forestEvents f) ⟨Node.mk [], []⟩ 0 =
      some (⟨addForest (Node.mk []) f, []⟩, forestDepth f) := by
  have h := runD_forest_eq f (Node.mk []) [] 0 (le_refl 0)
  simpa using h

/-! ## Close at the root panics; everything else returns the root -/

/-- C1 (amended): a `Close` event arriving while the current position is
the root is not a no-op: the Rust code unwraps the root's absent parent and
panics, so the whole parse fails (`none`), whatever follows. -/
theorem close_at_root_panics (pre : List ParseEvent) (nm : String)
    (suf : List ParseEvent) (s : PState)
    (hrun : run pre ⟨Node.mk [], []⟩ = some s) (hstk : s.stack = []) :
    parse (pre ++ ParseEvent.End nm :: suf) = none := by
  unfold parse
  rw [run_append, hrun]
  obtain ⟨cur, stk⟩ := s
  dsimp only at hstk
  subst hstk
  simp [run, step]

/-- C1 counterexample: on a stray `Close` before any `Open`, `parse` does
fail (the claim says it must not). -/
theorem close_at_root_counterexample : parse [ParseEvent.End "x"] = none := rfl

/-- Witness for `close_at_root_panics`: the empty prefix leaves the parser
at the root, and the following `Close` kills the parse. -/
theorem close_at_root_panics_witness :
    run [] ⟨Node.mk [], []⟩ = some ⟨Node.mk [], []⟩ ∧
    parse ([] ++ ParseEvent.End "x" :: [ParseEvent.Start "a"]) = none :=
  ⟨rfl, close_at_root_panics [] "x" [ParseEvent.Start "a"] ⟨Node.mk [], []⟩ rfl rfl⟩

theorem run_depthOk_some : ∀ (es : List ParseEvent) (s : PState),
    depthOk es s.stack.length = true → ∃ s', run es s = some s'
  | [], s, _ => ⟨s, rfl⟩
  | .Start n :: es, s, h => by
    obtain ⟨cur, stk⟩ := s
    simp only [run, step]
    exact run_depthOk_some es ⟨_, (n, cur) :: stk⟩ (by simpa [depthOk] using h)
  | .End n :: es, s, h => by
    obtain ⟨cur, stk⟩ := s
    cases stk with
    | nil => simp [depthOk] at h
    | cons f rest =>
      obtain ⟨nm, p⟩ := f
      simp only [run, step]
      exact run_depthOk_some es ⟨_, rest⟩ (by simpa [depthOk] using h)

/-- C3 (amended): the empty sequence yields the bare root, and every
sequence that never closes at the root — balanced or not — parses to some
tree rather than failing; only a `Close` at the root (see C1) aborts. -/
theorem stream_exhaustion_returns_root :
    parse [] = some (Node.mk []) ∧
    ∀ es, depthOk es 0 = true → ∃ t, parse es = some t :=
  ⟨rfl, fun es h => by
    obtain ⟨s', hs'⟩ := run_depthOk_some es ⟨Node.mk [], []⟩ (by simpa using h)
    exact ⟨plug s', by simp [parse, hs']⟩⟩

/-- C3 counterexample: a sequence whose `Close` arrives at the root makes
`parse` fail, so not every sequence returns a tree. -/
theorem stream_exhaustion_counterexample : parse [ParseEvent.End "y"] = none := rfl

/-- Witness for `stream_exhaustion_returns_root`: an unbalanced sequence
(an `Open` never closed) still returns a tree. -/
theorem stream_exhaustion_witness :
    depthOk [ParseEvent.Start "a"] 0 = true ∧
    ∃ t, parse [ParseEvent.Start "a"] = some t :=
  ⟨rfl, stream_exhaustion_returns_root.2 [ParseEvent.Start "a"] rfl⟩

/-! ## End names are never inspected -/

theorem run_endAgnostic : ∀ {es fs : List ParseEvent}, EndAgnostic es fs →
    ∀ s, run es s = run fs s := by
  intro es fs h
  induction h with
  | nil => intro s; rfl
  | start n h ih =>
    intro s
    obtain ⟨cur, stk⟩ := s
    simp only [run, step]
    exact ih _
  | close a b h ih =>
    intro s
    obtain ⟨cur, stk⟩ := s
    cases stk with
    | nil => simp [run, step]
    | cons f rest =>
      obtain ⟨nm, p⟩ := f
      simp only [run, step]
      exact ih _

/-- C5: the parsed tree never depends on the names carried by `End`
events: sequences that differ only there parse identically (no open/close
name matching is performed). -/
theorem end_names_ignored {es fs : List ParseEvent} (h : EndAgnostic es fs) :
    parse es = parse fs := by
  unfold parse
  rw [run_endAgnostic h]

/-- Witness for `end_names_ignored`: a matching and a mismatched close
name give the same tree. -/
theorem end_names_ignored_witness :
    parse [ParseEvent.Start "a", ParseEvent.End "a"] =
      parse [ParseEvent.Start "a", ParseEvent.End "mismatch"] :=
  end_names_ignored
    (EndAgnostic.start "a" (EndAgnostic.close "a" "mismatch" EndAgnostic.nil))

/-! ## Determinism of the parser loop -/

theorem stepRel_det {s : PState} {e : ParseEvent} {s₁ s₂ : PState}
    (h₁ : StepRel s e s₁) (h₂ : StepRel s e s₂) : s₁ = s₂ := by
  cases h₁ with
  | startNew n cur stk h =>
    cases h₂ with
    | startNew n' cur' stk' h' => rfl
    | startOld n' cur' c' stk' h' =>
      rw [h] at h'
      exact absurd h' (by simp)
  | startOld n cur c stk h =>
    cases h₂ with
    | startNew n' cur' stk' h' =>
      rw [h] at h'
      exact absurd h' (by simp)
    | startOld n' cur' c' stk' h' =>
      rw [h] at h'
      injection h' with hc
      rw [hc]
  | endPop m n cur p rest =>
    cases h₂ with
    | endPop m' n' cur' p' rest' => rfl

theorem runRel_det : ∀ {s : PState} {es : List ParseEvent} {s₁ : PState},
    RunRel s es s₁ → ∀ {s₂ : PState}, RunRel s es s₂ → s₁ = s₂ := by
  intro s es s₁ h₁
  induction h₁ with
  | nil s => intro s₂ h₂; cases h₂; rfl
  | cons hstep hrun ih =>
    intro s₂ h₂
    cases h₂ with
    | cons hstep' hrun' =>
      cases stepRel_det hstep hstep'
      exact ih hrun'

/-- C6: `parse` is deterministic: any two runs of the parser loop on the
same event sequence produce the same tree. -/
theorem parse_deterministic {es : List ParseEvent} {t₁ t₂ : Node}
    (h₁ : ParseRel es t₁) (h₂ : ParseRel es t₂) : t₁ = t₂ := by
  obtain ⟨s₁, hr₁, ht₁⟩ := h₁
  obtain ⟨s₂, hr₂, ht₂⟩ := h₂
  rw [ht₁, ht₂, runRel_det hr₁ hr₂]

/-- Witness for `parse_deterministic`: a concrete run of the loop. -/
theorem parse_deterministic_witness :
    ParseRel [ParseEvent.Start "a", ParseEvent.End "a"]
      (Node.mk [("a", Node.mk [])]) ∧
    Node.mk [("a", Node.mk [])] = Node.mk [("a", Node.mk [])] :=
  have hd : ParseRel [ParseEvent.Start "a", ParseEvent.End "a"]
      (Node.mk [("a", Node.mk [])]) :=
    ⟨⟨Node.mk [("a", Node.mk [])], []⟩,
      RunRel.cons (StepRel.startNew "a" (Node.mk []) [] rfl)
        (RunRel.cons (StepRel.endPop "a" "a" (Node.mk []) (Node.mk []) [])
          (RunRel.nil _)),
      rfl⟩
  ⟨hd, parse_deterministic hd hd⟩

/-! ## Renderer refinement -/

theorem linesToString_append : ∀ (xs ys : List String),
    linesToString (xs ++ ys) = linesToString xs ++ linesToString ys
  | [], ys => by simp [linesToString]
  | x :: xs, ys => by
    simp [linesToString, linesToString_append xs ys, String.append_assoc]

mutual
theorem print_eq_renderLines : ∀ (t : Node) (d : Nat),
    Node.print t d = linesToString (renderLines t d)
  | .mk cs, d => printEntries_eq_renderLines cs d
theorem printEntries_eq_renderLines : ∀ (cs : List (String × Node)) (d : Nat),
    printEntries cs d = linesToString (renderEntryLines cs d)
  | [], _ => rfl
  | (name, node) :: rest, d => by
    by_cases h : node.children.length < 1
    · rw [printEntries, if_pos h, renderEntryLines, if_pos h]
      rw [printEntries_eq_renderLines rest d, linesToString_append]
      simp [linesToString, String.append_assoc,
        show (" />" : String) ++ "\n" = " />\n" from rfl]
    · rw [printEntries, if_neg h, renderEntryLines, if_neg h]
      rw [printEntries_eq_renderLines rest d, linesToString_append]
      simp [linesToString, linesToString_append,
        print_eq_renderLines node (d + 1), String.append_assoc,
        show (">" : String) ++ "\n" = ">\n" from rfl]
end

theorem indent_length : ∀ d : Nat, (indent d).length = 2 * d
  | 0 => rfl
  | d + 1 => by
    rw [indent, String.length_append, indent_length d,
      show ("  " : String).length = 2 from rfl]
    omega

/-- C8: the renderer turns a finished `Node` into an indented listing: a
childless child becomes one self-closing-tag line at its indentation, and a
child with children becomes an open-tag line, the recursively rendered
lines one level deeper, and a close-tag line, with the indentation two
spaces per depth level.  (`Node.print` is a pure function of the tree, so
the traversal cannot mutate it.) -/
theorem renderer_contract (t : Node) (d : Nat) :
    Node.print t d = linesToString (renderLines t d) ∧
    (indent d).length = 2 * d :=
  ⟨print_eq_renderLines t d, indent_length d⟩

/-! ## Adapter error and filtering behaviour -/

theorem adapt_error_eq_eos : ∀ (pre : List RawToken) (m : String)
    (suf suf' : List RawToken),
    (adapt (pre ++ RawToken.ReadError m :: suf)).1 =
      (adapt (pre ++ RawToken.EndDocument :: suf')).1
  | [], _, _, _ => rfl
  | t :: pre, m, suf, suf' => by
    cases t <;> simp [adapt, adapt_error_eq_eos pre m suf suf']

theorem adapt_drops_other : ∀ (pre suf : List RawToken),
    adapt (pre ++ RawToken.OtherToken :: suf) = adapt (pre ++ suf)
  | [], suf => by simp [adapt]
  | t :: pre, suf => by
    cases t <;> simp [adapt, adapt_drops_other pre suf]

theorem adapt_clean_error : ∀ (pre : List RawToken) (m : String)
    (suf : List RawToken), isClean pre = true →
    adapt (pre ++ RawToken.ReadError m :: suf) = ((adapt pre).1, [m])
  | [], _, _, _ => rfl
  | t :: pre, m, suf, h => by
    simp only [isClean, List.all_cons, Bool.and_eq_true] at h
    obtain ⟨ht, hpre⟩ := h
    cases t with
    | StartElement n => simp [adapt, adapt_clean_error pre m suf hpre]
    | EndElement n => simp [adapt, adapt_clean_error pre m suf hpre]
    | EndDocument => simp [isCleanToken] at ht
    | ReadError msg => simp [isCleanToken] at ht
    | OtherToken => simp [adapt, adapt_clean_error pre m suf hpre]

/-- C9: a read error ends the event sequence exactly as end-of-stream
would (the consumer sees the same events, whatever follows), all token
kinds other than element open/close are dropped without emission, and the
first error after a cleanly consumed prefix emits its diagnostic while the
events are exactly those of the prefix. -/
theorem adapter_contract :
    (∀ (pre : List RawToken) (m : String) (suf suf' : List RawToken),
      (adapt (pre ++ RawToken.ReadError m :: suf)).1 =
        (adapt (pre ++ RawToken.EndDocument :: suf')).1) ∧
    (∀ (pre suf : List RawToken),
      adapt (pre ++ RawToken.OtherToken :: suf) = adapt (pre ++ suf)) ∧
    (∀ (pre : List RawToken) (m : String) (suf : List RawToken),
      isClean pre = true →
      adapt (pre ++ RawToken.ReadError m :: suf) = ((adapt pre).1, [m])) :=
  ⟨adapt_error_eq_eos, adapt_drops_other, adapt_clean_error⟩

/-- Witness for `adapter_contract`: an error after a clean prefix. -/
theorem adapter_contract_witness :
    isClean [RawToken.StartElement "a", RawToken.OtherToken] = true ∧
    adapt ([RawToken.StartElement "a", RawToken.OtherToken] ++
        RawToken.ReadError "boom" :: [RawToken.StartElement "b"]) =
      ((adapt [RawToken.StartElement "a", RawToken.OtherToken]).1, ["boom"]) :=
  ⟨rfl, adapter_contract.2.2 _ "boom" _ rfl⟩

/-! ## Parent back-references in the identity-carrying arena model -/

theorem getElem?_some_lt {α : Type} {l : List α} {i : Nat} {x : α}
    (h : l[i]? = some x) : i < l.length := by
  by_contra hc
  rw [List.getElem?_eq_none (by omega)] at h
  exact absurd h (by simp)

theorem lookupId_mem (k : String) : ∀ (l : List (String × Nat)) (i : Nat),
    lookupId k l = some i → i ∈ l.map Prod.snd
  | [], i, h => by simp [lookupId] at h
  | (k', j) :: rest, i, h => by
    simp only [lookupId] at h
    by_cases hk : k = k'
    · rw [if_pos hk] at h
      injection h with h
      simp [h]
    · rw [if_neg hk] at h
      simp only [List.map_cons, List.mem_cons]
      exact Or.inr (lookupId_mem k rest i h)

theorem getElem?_grow (ns : List ANode) (cur : Nat) (nd' fresh : ANode)
    (hcur : cur < ns.length) :
    ∀ j, (ns.set cur nd' ++ [fresh])[j]? =
      if j = cur then some nd'
      else if j = ns.length then some fresh
      else ns[j]? := by
  intro j
  by_cases hjc : j = cur
  · subst hjc
    rw [if_pos rfl, List.getElem?_append_left (by simpa [List.length_set] using hcur)]
    exact List.getElem?_set_eq_of_lt nd' hcur
  · rw [if_neg hjc]
    by_cases hjl : j = ns.length
    · subst hjl
      rw [if_pos rfl, List.getElem?_append_right (by simp [List.length_set])]
      simp [List.length_set]
    · rw [if_neg hjl]
      by_cases hlt : j < ns.length
      · rw [List.getElem?_append_left (by simpa [List.length_set] using hlt),
          List.getElem?_set_ne (Ne.symm hjc)]
      · have h1 : (ns.set cur nd' ++ [fresh])[j]? =
            ([fresh] : List ANode)[j - (ns.set cur nd').length]? :=
          List.getElem?_append_right (by simp [List.length_set]; omega)
        have h2 : ([fresh] : List ANode)[j - (ns.set cur nd').length]? = none :=
          List.getElem?_eq_none (by simp [List.length_set]; omega)
        have h3 : ns[j]? = none := List.getElem?_eq_none (by omega)
        rw [h1, h2, h3]

theorem childOf_grow (ns : List ANode) (cur c1 c2 : Nat) (nd : ANode)
    (name : String) (hcur : ns[cur]? = some nd) :
    ∀ i j,
      childOf ⟨ns.set cur ⟨(name, ns.length) :: nd.children, nd.parent⟩ ++
        [⟨[], some cur⟩], c2⟩ i j ↔
      (childOf ⟨ns, c1⟩ i j ∨ (i = ns.length ∧ j = cur)) := by
  have hlt := getElem?_some_lt hcur
  intro i j
  simp only [childOf]
  rw [getElem?_grow ns cur _ _ hlt j]
  by_cases hjc : j = cur
  · subst hjc
    rw [if_pos rfl]
    constructor
    · rintro ⟨n2, hn2, hi⟩
      injection hn2 with hn2
      subst hn2
      simp only [List.map_cons, List.mem_cons] at hi
      rcases hi with hi | hi
      · exact Or.inr ⟨hi, rfl⟩
      · exact Or.inl ⟨nd, hcur, hi⟩
    · rintro (⟨n2, hn2, hi⟩ | ⟨hi, _⟩)
      · rw [hcur] at hn2
        injection hn2 with hn2
        subst hn2
        exact ⟨_, rfl, by simp [hi]⟩
      · exact ⟨_, rfl, by simp [hi]⟩
  · rw [if_neg hjc]
    by_cases hjl : j = ns.length
    · subst hjl
      rw [if_pos rfl]
      constructor
      · rintro ⟨n2, hn2, hi⟩
        injection hn2 with hn2
        subst hn2
        simp at hi
      · rintro (⟨n2, hn2, _⟩ | ⟨_, hj⟩)
        · exact absurd (getElem?_some_lt hn2) (lt_irrefl _)
        · exact absurd hj (by omega)
    · rw [if_neg hjl]
      constructor
      · rintro ⟨n2, hn2, hi⟩
        exact Or.inl ⟨n2, hn2, hi⟩
      · rintro (⟨n2, hn2, hi⟩ | ⟨_, hj⟩)
        · exact ⟨n2, hn2, hi⟩
        · exact absurd hj hjc

theorem parentOf_grow (ns : List ANode) (cur c1 c2 : Nat) (nd : ANode)
    (name : String) (hcur : ns[cur]? = some nd) :
    ∀ i j,
      parentOf ⟨ns.set cur ⟨(name, ns.length) :: nd.children, nd.parent⟩ ++
        [⟨[], some cur⟩], c2⟩ i j ↔
      (parentOf ⟨ns, c1⟩ i j ∨ (i = ns.length ∧ j = cur)) := by
  have hlt := getElem?_some_lt hcur
  intro i j
  simp only [parentOf]
  rw [getElem?_grow ns cur _ _ hlt i]
  by_cases hic : i = cur
  · subst hic
    rw [if_pos rfl]
    constructor
    · rintro ⟨n2, hn2, hp⟩
      injection hn2 with hn2
      subst hn2
      exact Or.inl ⟨nd, hcur, hp⟩
    · rintro (⟨n2, hn2, hp⟩ | ⟨hi, _⟩)
      · rw [hcur] at hn2
        injection hn2 with hn2
        subst hn2
        exact ⟨_, rfl, hp⟩
      · exact absurd hi (by omega)
  · rw [if_neg hic]
    by_cases hil : i = ns.length
    · subst hil
      rw [if_pos rfl]
      constructor
      · rintro ⟨n2, hn2, hp⟩
        injection hn2 with hn2
        subst hn2
        replace hp : some cur = some j := hp
        injection hp with hp
        exact Or.inr ⟨rfl, hp.symm⟩
      · rintro (⟨n2, hn2, _⟩ | ⟨_, hj⟩)
        · exact absurd (getElem?_some_lt hn2) (lt_irrefl _)
        · subst hj
          exact ⟨_, rfl, rfl⟩
    · rw [if_neg hil]
      constructor
      · rintro ⟨n2, h1, h2⟩
        exact Or.inl ⟨n2, h1, h2⟩
      · rintro (⟨n2, h1, h2⟩ | ⟨hi, _⟩)
        · exact ⟨n2, h1, h2⟩
        · exact absurd hi hil

theorem arenaInv_init : ArenaInv arenaInit := by
  refine ⟨by simp [arenaInit], by simp [arenaInit], ?_, ?_, ?_, ?_⟩
  · intro nd h
    replace h : some (⟨[], none⟩ : ANode) = some nd := h
    injection h with h
    subst h
    rfl
  · rintro i j ⟨nd, hj, hi⟩
    cases j with
    | zero =>
      replace hj : some (⟨[], none⟩ : ANode) = some nd := hj
      injection hj with hj
      subst hj
      simp at hi
    | succ j' =>
      replace hj : (none : Option ANode) = some nd := hj
      exact absurd hj (by simp)
  · intro i j
    constructor
    · rintro ⟨nd, hj, hi⟩
      cases j with
      | zero =>
        replace hj : some (⟨[], none⟩ : ANode) = some nd := hj
        injection hj with hj
        subst hj
        simp at hi
      | succ j' =>
        replace hj : (none : Option ANode) = some nd := hj
        exact absurd hj (by simp)
    · rintro ⟨nd, hi, hp⟩
      cases i with
      | zero =>
        replace hi : some (⟨[], none⟩ : ANode) = some nd := hi
        injection hi with hi
        subst hi
        replace hp : (none : Option Nat) = some j := hp
        exact absurd hp (by simp)
      | succ i' =>
        replace hi : (none : Option ANode) = some nd := hi
        exact absurd hi (by simp)
  · intro i h0 hi
    simp only [arenaInit, List.length_singleton] at hi
    omega

theorem arenaInv_step {a : Arena} {e : ParseEvent} {a' : Arena}
    (hinv : ArenaInv a) (hstep : arenaStep a e = some a') : ArenaInv a' := by
  obtain ⟨ns, cur⟩ := a
  obtain ⟨hlen, hcur, hroot, hbound, hlink, hcover⟩ := hinv
  cases e with
  | Start name =>
    simp only [arenaStep] at hstep
    split at hstep
    · exact absurd hstep (by simp)
    · rename_i nd hnd
      split at hstep
      · rename_i cid hlook
        injection hstep with hstep
        subst hstep
        have hchild : childOf ⟨ns, cur⟩ cid cur :=
          ⟨nd, hnd, lookupId_mem name nd.children cid hlook⟩
        exact ⟨hlen, (hbound cid cur hchild).2, hroot, hbound, hlink, hcover⟩
      · rename_i hlook
        injection hstep with hstep
        subst hstep
        have hlt := getElem?_some_lt hnd
        have hlen' : (ns.set cur ⟨(name, ns.length) :: nd.children, nd.parent⟩ ++
            [(⟨[], some cur⟩ : ANode)]).length = ns.length + 1 := by
          simp [List.length_set]
        refine ⟨by simp only [hlen']; omega, by simp only [hlen']; omega,
          ?_, ?_, ?_, ?_⟩
        · intro nd0 h0
          rw [getElem?_grow ns cur _ _ hlt 0] at h0
          by_cases h0c : (0 : Nat) = cur
          · rw [if_pos h0c] at h0
            injection h0 with h0
            subst h0
            exact hroot nd (h0c ▸ hnd)
          · rw [if_neg h0c, if_neg (by omega)] at h0
            exact hroot nd0 h0
        · intro i j hc
          rw [childOf_grow ns cur cur ns.length nd name hnd i j] at hc
          simp only [List.length_append, List.length_set, List.length_cons,
            List.length_nil]
          rcases hc with hc | ⟨hi, _⟩
          · have hb : 0 < i ∧ i < ns.length := hbound i j hc
            omega
          · subst hi
            have hl : 0 < ns.length := hlen
            omega
        · intro i j
          rw [childOf_grow ns cur cur ns.length nd name hnd i j,
            parentOf_grow ns cur cur ns.length nd name hnd i j]
          exact or_congr (hlink i j) Iff.rfl
        · intro i h0 hi
          have hi2 : i < ns.length + 1 := by
            simp only [List.length_append, List.length_set, List.length_cons,
              List.length_nil] at hi
            omega
          by_cases hil : i = ns.length
          · exact ⟨cur,
              (childOf_grow ns cur cur ns.length nd name hnd i cur).mpr
                (Or.inr ⟨hil, rfl⟩)⟩
          · obtain ⟨j, hj⟩ := hcover i h0 ((by omega : i < ns.length))
            exact ⟨j,
              (childOf_grow ns cur cur ns.length nd name hnd i j).mpr
                (Or.inl hj)⟩
  | End name =>
    simp only [arenaStep] at hstep
    split at hstep
    · exact absurd hstep (by simp)
    · rename_i nd hnd
      split at hstep
      · exact absurd hstep (by simp)
      · rename_i p hp
        injection hstep with hstep
        subst hstep
        have hpar : parentOf ⟨ns, cur⟩ cur p := ⟨nd, hnd, hp⟩
        have hch : childOf ⟨ns, cur⟩ cur p := (hlink cur p).mpr hpar
        obtain ⟨pn, hpn, _⟩ := hch
        exact ⟨hlen, getElem?_some_lt hpn, hroot, hbound, hlink, hcover⟩

theorem arenaInv_run : ∀ (es : List ParseEvent) (a : Arena), ArenaInv a →
    ∀ a', arenaRun es a = some a' → ArenaInv a'
  | [], a, hinv, a', h => by
    simp only [arenaRun] at h
    injection h with h
    exact h ▸ hinv
  | e :: es, a, hinv, a', h => by
    simp only [arenaRun] at h
    cases hs : arenaStep a e with
    | none => rw [hs] at h; exact absurd h (by simp)
    | some b =>
      rw [hs] at h
      exact arenaInv_run es b (arenaInv_step hinv hs) a' h

theorem arenaStep_parent_stable {a : Arena} {e : ParseEvent} {a' : Arena}
    (h : arenaStep a e = some a') :
    ∀ (i : Nat) (nd : ANode), a.nodes[i]? = some nd →
      ∃ nd' : ANode, a'.nodes[i]? = some nd' ∧ nd'.parent = nd.parent := by
  obtain ⟨ns, cur⟩ := a
  cases e with
  | Start name =>
    simp only [arenaStep] at h
    split at h
    · exact absurd h (by simp)
    · rename_i nd0 hnd
      split at h
      · injection h with h
        subst h
        exact fun i nd hi => ⟨nd, hi, rfl⟩
      · injection h with h
        subst h
        intro i nd hi
        rw [getElem?_grow ns cur _ _ (getElem?_some_lt hnd) i]
        by_cases hic : i = cur
        · subst hic
          rw [if_pos rfl]
          rw [hnd] at hi
          injection hi with hi
          subst hi
          exact ⟨_, rfl, rfl⟩
        · rw [if_neg hic,
            if_neg (by have h5 : i < ns.length := getElem?_some_lt hi; omega)]
          exact ⟨nd, hi, rfl⟩
  | End name =>
    simp only [arenaStep] at h
    split at h
    · exact absurd h (by simp)
    · rename_i nd0 hnd
      split at h
      · exact absurd h (by simp)
      · injection h with h
        subst h
        exact fun i nd hi => ⟨nd, hi, rfl⟩

/-- C10: in every state the arena-model `parse` reaches (any event
sequence run from the initial store), the root (id 0) has no parent
back-reference, every other node's parent back-reference points to exactly
the node whose children map contains it (which exists and is unique), and
a single step never changes the parent field of an existing node — the
back-reference is assigned once, at creation, and never reassigned. -/
theorem parent_backref_invariant (es : List ParseEvent) (a : Arena)
    (hrun : arenaRun es arenaInit = some a) :
    (∀ nd, a.nodes[0]? = some nd → nd.parent = none) ∧
    (∀ i, 0 < i → i < a.nodes.length →
      ∃ p, parentOf a i p ∧ childOf a i p ∧ ∀ j, childOf a i j → j = p) ∧
    (∀ (b : Arena) (e : ParseEvent) (b' : Arena), arenaStep b e = some b' →
      ∀ (i : Nat) (nd : ANode), b.nodes[i]? = some nd →
        ∃ nd' : ANode, b'.nodes[i]? = some nd' ∧ nd'.parent = nd.parent) := by
  have hinv := arenaInv_run es arenaInit arenaInv_init a hrun
  obtain ⟨hlen, hcur, hroot, hbound, hlink, hcover⟩ := hinv
  refine ⟨hroot, ?_, fun b e b' hb => arenaStep_parent_stable hb⟩
  intro i h0 hi
  obtain ⟨p, hp⟩ := hcover i h0 hi
  refine ⟨p, (hlink i p).mp hp, hp, ?_⟩
  intro j hj
  have h1 := (hlink i p).mp hp
  have h2 := (hlink i j).mp hj
  obtain ⟨nd1, hnd1, hp1⟩ := h1
  obtain ⟨nd2, hnd2, hp2⟩ := h2
  rw [hnd1] at hnd2
  injection hnd2 with hnd2
  subst hnd2
  rw [hp1] at hp2
  injection hp2 with hp2
  exact hp2.symm

/-- Witness for `parent_backref_invariant`: after one `Open`, the store
holds the root and one child, and the root's parent is `None`. -/
theorem parent_backref_invariant_witness :
    arenaRun [ParseEvent.Start "a"] arenaInit =
      some ⟨[⟨[("a", 1)], none⟩, ⟨[], some 0⟩], 1⟩ ∧
    (∀ nd, (⟨[⟨[("a", 1)], none⟩, ⟨[], some 0⟩], 1⟩ : Arena).nodes[0]? =
      some nd → nd.parent = none) :=
  ⟨rfl, (parent_backref_invariant [ParseEvent.Start "a"] _ rfl).1⟩
